import Mathlib

/-!
Shallow embedding of the Peloton p2k host cache
(`src/pkg/hostmgr/p2k/hostcache/hostcache.go`) and of the event scalar
helpers (`src/unnamed/part_002`, package `scalar`).

Go maps are embedded as association lists `List (String × α)`; a list both
carries the map contents and fixes one iteration order (Go's map iteration
order is unspecified, so properties about iteration are quantified over
permutations of the list).  Machine `float64` resource arithmetic is embedded
with exact rationals, and `uint64` arithmetic with `Nat` clamped explicitly
where the Go code can overflow.

Components whose Go sources are not part of the provided sources
(`pkg/hostmgr/scalar` resource vectors, `hostsummary.go`, `matcher.go`) are
modelled from the specification; each such definition carries a doc comment
starting with `Modelled from the spec:`.
-/

set_option linter.unusedVariables false

/-- Modelled from the spec: the `hmscalar.Resources` scalar resource vector
(§3 of the spec; package `pkg/hostmgr/scalar` is not among the sources).
The Go struct holds `float64` components; they are embedded as exact
rationals. -/
structure Resources where
  cpu : ℚ
  memMb : ℚ
  diskMb : ℚ
  gpu : ℚ
deriving DecidableEq, Repr

/-- Modelled from the spec: the zero resource vector (the Go zero value of
`hmscalar.Resources`). -/
def Resources.zero : Resources := ⟨0, 0, 0, 0⟩

/-- Modelled from the spec: `Resources.Add` returns the componentwise sum of
two resource vectors (§3: "Operations: add ..."; add returns a new
instance). -/
def Resources.Add (a b : Resources) : Resources :=
  ⟨a.cpu + b.cpu, a.memMb + b.memMb, a.diskMb + b.diskMb, a.gpu + b.gpu⟩

/-- Modelled from the spec: `Resources.Contains` is true when every component
of `a` is at least the corresponding component of `other` (§3:
"contains(other) (all components ≥ other)"). -/
def Resources.Contains (a other : Resources) : Bool :=
  decide (other.cpu ≤ a.cpu) && decide (other.memMb ≤ a.memMb) &&
    decide (other.diskMb ≤ a.diskMb) && decide (other.gpu ≤ a.gpu)

/-- Modelled from the spec: `Resources.Subtract` subtracts componentwise,
clamping negative components to zero (§4.1: "subtract clamps negative
components to zero"); the underflow flag is not needed by any claim. -/
def Resources.Subtract (a b : Resources) : Resources :=
  ⟨max (a.cpu - b.cpu) 0, max (a.memMb - b.memMb) 0,
    max (a.diskMb - b.diskMb) 0, max (a.gpu - b.gpu) 0⟩

/-- The `peloton.Resources` protobuf message carried by host events
(cpu, mem_mb, disk_mb, gpu), as used by `scalar.HostInfo` in
`src/unnamed/part_002`. -/
structure PResources where
  cpu : ℚ
  memMb : ℚ
  diskMb : ℚ
  gpu : ℚ
deriving DecidableEq, Repr

/-- Modelled from the spec: `hmscalar.FromPelotonResources` converts the
protobuf resource message into the internal vector field by field. -/
def FromPelotonResources (r : PResources) : Resources :=
  ⟨r.cpu, r.memMb, r.diskMb, r.gpu⟩

/-! ### Version comparison (`scalar.IsOldVersion`, src/unnamed/part_002) -/

/-- ASCII decimal digit test, as used by Go `strconv.ParseUint` in base 10. -/
def isDigitChar (c : Char) : Bool :=
  decide ('0' ≤ c) && decide (c ≤ '9')

/-- Numeric value of a digit string, most significant digit first. -/
def digitsVal (l : List Char) : Nat :=
  l.foldl (fun n c => n * 10 + (c.toNat - '0'.toNat)) 0

/-- Embedding of Go `strconv.ParseUint(s, 10, 64)` with the error discarded,
as `IsOldVersion` does: a string that is not a nonempty run of decimal digits
yields 0 (`ErrSyntax` case), and a digit run that overflows 64 bits yields
`2^64 - 1` (`ErrRange` case returns `MaxUint64`). -/
def goParseUint64 (s : String) : Nat :=
  if (!s.data.isEmpty) && s.data.all isDigitChar then
    min (digitsVal s.data) (2 ^ 64 - 1)
  else 0

/-- Embedding of `scalar.IsOldVersion` (src/unnamed/part_002 lines 155-159):
both versions are run through `ParseUint` with the error ignored, and the
results are compared numerically.  No string comparison is performed. -/
def IsOldVersion (oldVersion newVersion : String) : Bool :=
  decide (goParseUint64 newVersion < goParseUint64 oldVersion)

/-- True when Go `strconv.ParseUint(s, 10, 64)` returns a nil error: `s` is a
nonempty run of decimal digits whose value fits in 64 bits. -/
def parsesAsUint (s : String) : Bool :=
  (!s.data.isEmpty) && s.data.all isDigitChar && decide (digitsVal s.data < 2 ^ 64)

/-- Lexicographic character-list comparison, Go's `<` on (ASCII) strings. -/
def strLess : List Char → List Char → Bool
  | [], [] => false
  | [], _ :: _ => true
  | _ :: _, [] => false
  | a :: as, b :: bs => if a < b then true else if b < a then false else strLess as bs

/-- Modelled from the spec (refinement reference for claim C3, following the
spec's words): "IsOldVersion(old, new) = parse_uint(new) < parse_uint(old)
when both parse; otherwise compare as strings." -/
def IsOldVersionSpec (oldVersion newVersion : String) : Bool :=
  if parsesAsUint oldVersion && parsesAsUint newVersion then
    decide (digitsVal newVersion.data < digitsVal oldVersion.data)
  else
    strLess newVersion.data oldVersion.data

/-! ### Association-list embedding of Go maps -/

/-- Lookup in an association list: `m[k]` of a Go map. -/
def lookupL {α : Type} (k : String) : List (String × α) → Option α
  | [] => none
  | (k2, v) :: t => if k2 = k then some v else lookupL k t

/-- Insertion into an association list: `m[k] = v` of a Go map (replaces the
binding in place if the key is present, otherwise appends). -/
def insertL {α : Type} (k : String) (v : α) : List (String × α) → List (String × α)
  | [] => [(k, v)]
  | (k2, v2) :: t => if k2 = k then (k, v) :: t else (k2, v2) :: insertL k v t

/-- Deletion from an association list: `delete(m, k)` of a Go map. -/
def eraseL {α : Type} (k : String) : List (String × α) → List (String × α)
  | [] => []
  | (k2, v2) :: t => if k2 = k then t else (k2, v2) :: eraseL k t

/-- A Go map never holds two bindings for one key; association lists standing
for maps satisfy this. -/
def keysNodup {α : Type} (l : List (String × α)) : Prop :=
  (l.map Prod.fst).Nodup

instance {α : Type} (l : List (String × α)) : Decidable (keysNodup l) := by
  unfold keysNodup
  infer_instance

theorem mem_keys_of_lookupL {α : Type} {k : String} {v : α} {l : List (String × α)}
    (h : lookupL k l = some v) : k ∈ l.map Prod.fst := by
  induction l with
  | nil => simp [lookupL] at h
  | cons p t ih =>
    obtain ⟨k2, v2⟩ := p
    by_cases h2 : k2 = k
    · subst h2
      simp
    · simp only [lookupL, if_neg h2] at h
      simp [ih h]

theorem lookupL_eq_none_of_not_mem {α : Type} {k : String} {l : List (String × α)}
    (h : k ∉ l.map Prod.fst) : lookupL k l = none := by
  induction l with
  | nil => simp [lookupL]
  | cons p t ih =>
    obtain ⟨k2, v2⟩ := p
    simp only [List.map_cons, List.mem_cons] at h
    push_neg at h
    have hne : ¬(k2 = k) := fun e => h.1 e.symm
    simp only [lookupL, if_neg hne]
    exact ih h.2

theorem lookupL_insertL_self {α : Type} (k : String) (v : α) (l : List (String × α)) :
    lookupL k (insertL k v l) = some v := by
  induction l with
  | nil => simp [insertL, lookupL]
  | cons p t ih =>
    obtain ⟨k2, v2⟩ := p
    by_cases h : k2 = k <;> simp [insertL, lookupL, h, ih]

theorem lookupL_insertL_ne {α : Type} {k k2 : String} (v : α) (l : List (String × α))
    (h : k2 ≠ k) : lookupL k2 (insertL k v l) = lookupL k2 l := by
  have hk : ¬(k = k2) := fun e => h e.symm
  induction l with
  | nil => simp [insertL, lookupL, hk]
  | cons p t ih =>
    obtain ⟨k3, v3⟩ := p
    by_cases h3 : k3 = k
    · subst h3
      simp [insertL, lookupL, hk]
    · simp only [insertL, if_neg h3, lookupL]
      by_cases h4 : k3 = k2
      · simp [h4]
      · simp [h4, ih]

theorem insertL_self {α : Type} {k : String} {v : α} {l : List (String × α)}
    (h : lookupL k l = some v) : insertL k v l = l := by
  induction l with
  | nil => simp [lookupL] at h
  | cons p t ih =>
    obtain ⟨k2, v2⟩ := p
    by_cases h2 : k2 = k
    · subst h2
      have h2v : v2 = v := by simpa [lookupL] using h
      subst h2v
      simp [insertL]
    · simp only [lookupL, if_neg h2] at h
      simp [insertL, h2, ih h]

theorem keys_insertL {α : Type} (k : String) (v : α) (l : List (String × α)) :
    (insertL k v l).map Prod.fst =
      if k ∈ l.map Prod.fst then l.map Prod.fst else l.map Prod.fst ++ [k] := by
  induction l with
  | nil => simp [insertL]
  | cons p t ih =>
    obtain ⟨k2, v2⟩ := p
    by_cases h2 : k2 = k
    · subst h2
      simp [insertL]
    · simp only [insertL, if_neg h2, List.map_cons, ih, List.mem_cons]
      have hne : ¬(k = k2) := fun e => h2 e.symm
      by_cases hm : k ∈ t.map Prod.fst
      · simp [hm, hne]
      · simp [hm, hne]

theorem keys_eraseL {α : Type} (k : String) (l : List (String × α)) :
    (eraseL k l).map Prod.fst = (l.map Prod.fst).erase k := by
  induction l with
  | nil => simp [eraseL]
  | cons p t ih =>
    obtain ⟨k2, v2⟩ := p
    by_cases h2 : k2 = k
    · subst h2
      simp [eraseL, List.erase_cons_head]
    · rw [List.map_cons, List.erase_cons_tail]
      · simp [eraseL, h2, ih]
      · simp [h2]

theorem lookupL_eraseL_self {α : Type} (k : String) (l : List (String × α))
    (h : keysNodup l) : lookupL k (eraseL k l) = none := by
  apply lookupL_eq_none_of_not_mem
  rw [keys_eraseL]
  exact List.Nodup.not_mem_erase h

theorem lookupL_eraseL_ne {α : Type} {k k2 : String} (l : List (String × α))
    (h : k2 ≠ k) : lookupL k2 (eraseL k l) = lookupL k2 l := by
  induction l with
  | nil => simp [eraseL]
  | cons p t ih =>
    obtain ⟨k3, v3⟩ := p
    by_cases h3 : k3 = k
    · subst h3
      have hne : ¬(k3 = k2) := fun e => h e.symm
      simp [eraseL, lookupL, hne]
    · simp only [eraseL, if_neg h3, lookupL]
      by_cases h4 : k3 = k2
      · simp [h4]
      · simp [h4, ih]

theorem keysNodup_insertL {α : Type} (k : String) (v : α) (l : List (String × α))
    (h : keysNodup l) : keysNodup (insertL k v l) := by
  unfold keysNodup at h ⊢
  rw [keys_insertL]
  by_cases hm : k ∈ l.map Prod.fst
  · simpa [hm] using h
  · simp only [hm, if_false]
    rw [List.nodup_append]
    refine ⟨h, List.nodup_singleton k, ?_⟩
    intro a ha hb
    simp only [List.mem_singleton] at hb
    subst hb
    exact hm ha

theorem keysNodup_eraseL {α : Type} (k : String) (l : List (String × α))
    (h : keysNodup l) : keysNodup (eraseL k l) := by
  unfold keysNodup at h ⊢
  rw [keys_eraseL]
  exact List.Nodup.erase k h

/-! ### Host summaries (`hostsummary.go` is not among the sources; modelled
from spec §3, §4.2) -/

/-- Host status per spec §3: `Ready | Placing | Held`. -/
inductive HostStatus where
  | Ready
  | Placing
  | Held
deriving DecidableEq, Repr

/-- Summary kind per spec §3: `Kubelet` or `Mesos`. -/
inductive SummaryKind where
  | Kubelet
  | Mesos
deriving DecidableEq, Repr

/-- Per-pod error produced by `HostSummary.HoldForPod`; spec §7 names the tag
`ConflictingStatus` (operation not permitted in current status). -/
inductive PodHoldError where
  | ConflictingStatus
deriving DecidableEq, Repr

/-- Closed set of error tags returned by cache operations (spec §7).
`Internal` wraps the per-pod failures combined by `multierr` in
`hostCache.HoldForPods`. -/
inductive CacheError where
  | NotFound (hostname : String)
  | InvalidLease
  | InsufficientResources
  | ConflictingStatus
  | Internal (errs : List PodHoldError)
deriving DecidableEq, Repr

/-- Modelled from the spec: the per-host summary record, spec §3.  `holds` is
kept as the list of held pod ids (hold-expiry timestamps are not needed by
any claim under proof). -/
structure HostSummary where
  hostname : String
  kind : SummaryKind
  capacity : Resources
  allocated : Resources
  available : Resources
  version : String
  status : HostStatus
  leaseID : Option String
  pods : List (String × Resources)
  holds : List String
deriving DecidableEq, Repr

/-- The lease view returned to callers (spec §6): hostname, lease id, offered
resources. -/
structure HostLease where
  hostname : String
  leaseID : Option String
  offered : Resources
deriving DecidableEq, Repr

/-- Modelled from the spec: `newKubeletHostSummary(hostname, capacity,
version)` as called by `hostCache.addHost` — a fresh Kubelet-kind summary in
`Ready` status holding only the event's hostname, capacity and version (§3
Lifecycle; §4.4 AddHost). -/
def newKubeletHostSummary (hostname : String) (capacity : PResources)
    (version : String) : HostSummary :=
  { hostname := hostname
    kind := SummaryKind.Kubelet
    capacity := FromPelotonResources capacity
    allocated := Resources.zero
    available := FromPelotonResources capacity
    version := version
    status := HostStatus.Ready
    leaseID := none
    pods := []
    holds := [] }

/-- Modelled from the spec: `newMesosHostSummary(hostname, version)` as
called by `hostCache.updateHostAvailable` — a fresh Mesos-kind summary (§4.4
UpdateHostAvailableRes creates a Mesos-kind summary if absent). -/
def newMesosHostSummary (hostname : String) (version : String) : HostSummary :=
  { hostname := hostname
    kind := SummaryKind.Mesos
    capacity := Resources.zero
    allocated := Resources.zero
    available := Resources.zero
    version := version
    status := HostStatus.Ready
    leaseID := none
    pods := []
    holds := [] }

/-- Modelled from the spec: `SetCapacity` unconditional setter (§4.2). -/
def HostSummary.SetCapacity (hs : HostSummary) (r : Resources) : HostSummary :=
  { hs with capacity := r }

/-- Modelled from the spec: `SetAvailable` unconditional setter (§4.2). -/
def HostSummary.SetAvailable (hs : HostSummary) (r : Resources) : HostSummary :=
  { hs with available := r }

/-- Modelled from the spec: `SetVersion` unconditional setter (§4.2). -/
def HostSummary.SetVersion (hs : HostSummary) (v : String) : HostSummary :=
  { hs with version := v }

/-- Modelled from the spec: `GetHostLease` returns a copy of the current
lease view (§4.2). -/
def HostSummary.GetHostLease (hs : HostSummary) : HostLease :=
  ⟨hs.hostname, hs.leaseID, hs.available⟩

/-- Componentwise sum of a pod-to-resources mapping. -/
def sumPodRes (m : List (String × Resources)) : Resources :=
  m.foldl (fun acc p => acc.Add p.2) Resources.zero

/-- Modelled from the spec: `TerminateLease(lease_id)` transitions
`Placing → Ready` iff the lease id matches; otherwise fails `InvalidLease`
(§4.2; §7: `InvalidLease` — lease id does not match current lease or host is
not Placing). -/
def HostSummary.TerminateLease (hs : HostSummary) (leaseID : String) :
    Except CacheError HostSummary :=
  if hs.status ≠ HostStatus.Placing then Except.error CacheError.InvalidLease
  else if hs.leaseID ≠ some leaseID then Except.error CacheError.InvalidLease
  else Except.ok { hs with status := HostStatus.Ready, leaseID := none }

/-- Modelled from the spec: `CompleteLease(lease_id, pod_to_resources)`
verifies the id match and `Placing` status, checks the resources fit in
`capacity − allocated`, adds the pods, increments `allocated`, clears
matching holds, and returns to `Ready` (or `Held` if residual holds remain)
(§4.2). -/
def HostSummary.CompleteLease (hs : HostSummary) (leaseID : String)
    (podToResMap : List (String × Resources)) : Except CacheError HostSummary :=
  if hs.status ≠ HostStatus.Placing then Except.error CacheError.InvalidLease
  else if hs.leaseID ≠ some leaseID then Except.error CacheError.InvalidLease
  else if !(hs.capacity.Subtract hs.allocated).Contains (sumPodRes podToResMap) then
    Except.error CacheError.InsufficientResources
  else
    let launched := podToResMap.map Prod.fst
    let newHolds := hs.holds.filter (fun p => !launched.contains p)
    Except.ok { hs with
      status := if newHolds.isEmpty then HostStatus.Ready else HostStatus.Held
      leaseID := none
      pods := podToResMap.foldl (fun m p => insertL p.1 p.2 m) hs.pods
      allocated := hs.allocated.Add (sumPodRes podToResMap)
      holds := newHolds }

/-- Modelled from the spec: `HoldForPod(pod_id)` adds the pod to `holds` and
moves `Ready → Held`; fails `ConflictingStatus` while `Placing` (§4.2). -/
def HostSummary.HoldForPod (hs : HostSummary) (podID : String) :
    Except PodHoldError HostSummary :=
  if hs.status = HostStatus.Placing then Except.error PodHoldError.ConflictingStatus
  else Except.ok { hs with
    holds := if hs.holds.contains podID then hs.holds else hs.holds ++ [podID]
    status := HostStatus.Held }

/-- Modelled from the spec: `ReleaseHoldForPod(pod_id)` removes the entry and
transitions to `Ready` when `holds` becomes empty (§4.2). -/
def HostSummary.ReleaseHoldForPod (hs : HostSummary) (podID : String) : HostSummary :=
  let newHolds := hs.holds.erase podID
  { hs with
    holds := newHolds
    status := if newHolds.isEmpty && decide (hs.status = HostStatus.Held)
      then HostStatus.Ready else hs.status }

/-! ### Host events (`scalar.HostEvent`, src/unnamed/part_002) -/

/-- `scalar.HostEventType` (src/unnamed/part_002 lines 15-24). -/
inductive HostEventType where
  | AddHost
  | UpdateHostSpec
  | DeleteHost
  | UpdateHostAvailableRes
deriving DecidableEq, Repr

/-- `scalar.HostInfo` (src/unnamed/part_002 lines 47-58); the pod map is not
consulted by any host-cache path under proof and is omitted. -/
structure HostInfo where
  hostname : String
  capacity : PResources
  resourceVersion : String
  available : PResources
deriving DecidableEq, Repr

/-- `scalar.HostEvent` (src/unnamed/part_002 lines 28-33). -/
structure HostEvent where
  hostInfo : HostInfo
  eventType : HostEventType
deriving DecidableEq, Repr

/-! ### The host cache (`hostcache.go`) -/

/-- The mutable state of `hostCache` (hostcache.go lines 75-97): the hostname
index and the pod-held index.  Channels, plugin and lifecycle fields carry no
cache state and are omitted. -/
structure CacheState where
  hostIndex : List (String × HostSummary)
  podHeldIndex : List (String × String)
deriving DecidableEq, Repr

/-- Embeds `hostCache.getSummary` (hostcache.go lines 339-346): absent
hostname yields a NotFound error. -/
def CacheState.getSummary (c : CacheState) (hostname : String) :
    Except CacheError HostSummary :=
  match lookupL hostname c.hostIndex with
  | none => Except.error (CacheError.NotFound hostname)
  | some hs => Except.ok hs

/-- Embeds `hostCache.addPodHold` (hostcache.go lines 320-330): replaces the
old binding if one exists (the Go code only logs the conflict). -/
def addPodHold (phi : List (String × String)) (hostname : String) (id : String) :
    List (String × String) :=
  insertL id hostname phi

/-- Embeds `hostCache.removePodHold` (hostcache.go lines 333-335): deletes
the pod's binding regardless of hostname. -/
def removePodHold (phi : List (String × String)) (id : String) :
    List (String × String) :=
  eraseL id phi

/-- Embeds `hostCache.TerminateLease` (hostcache.go lines 183-199).  The Go
method mutates the summary through the map's pointer; here the updated
summary is written back to the index. -/
def CacheState.TerminateLease (c : CacheState) (hostname : String) (leaseID : String) :
    CacheState × Option CacheError :=
  match lookupL hostname c.hostIndex with
  | none => (c, some (CacheError.NotFound hostname))
  | some hs =>
    match hs.TerminateLease leaseID with
    | Except.error e => (c, some e)
    | Except.ok hs2 =>
      ({ c with hostIndex := insertL hostname hs2 c.hostIndex }, none)

/-- Embeds `hostCache.CompleteLease` (hostcache.go lines 212-231).  Note the
`TODO: remove held hosts.` in the source: `podHeldIndex` is not touched. -/
def CacheState.CompleteLease (c : CacheState) (hostname : String) (leaseID : String)
    (podToResMap : List (String × Resources)) : CacheState × Option CacheError :=
  match lookupL hostname c.hostIndex with
  | none => (c, some (CacheError.NotFound hostname))
  | some hs =>
    match hs.CompleteLease leaseID podToResMap with
    | Except.error e => (c, some e)
    | Except.ok hs2 =>
      ({ c with hostIndex := insertL hostname hs2 c.hostIndex }, none)

/-- One step of the `HoldForPods` loop body: the running summary, the
pod-held index and the collected per-pod errors. -/
def holdStep (hostname : String) (acc : HostSummary × List (String × String) × List PodHoldError)
    (id : String) : HostSummary × List (String × String) × List PodHoldError :=
  match acc.1.HoldForPod id with
  | Except.error e => (acc.1, acc.2.1, acc.2.2 ++ [e])
  | Except.ok hs2 => (hs2, addPodHold acc.2.1 hostname id, acc.2.2)

/-- Embeds `hostCache.HoldForPods` (hostcache.go lines 282-302): per-pod
failures are collected and the loop continues; successes call `addPodHold`
immediately; a nonempty error list is wrapped into a single Internal
error. -/
def CacheState.HoldForPods (c : CacheState) (hostname : String) (podIDs : List String) :
    CacheState × Option CacheError :=
  match lookupL hostname c.hostIndex with
  | none => (c, some (CacheError.NotFound hostname))
  | some hs =>
    let r := podIDs.foldl (holdStep hostname) (hs, c.podHeldIndex, [])
    ({ hostIndex := insertL hostname r.1 c.hostIndex, podHeldIndex := r.2.1 },
      if r.2.2.isEmpty then none else some (CacheError.Internal r.2.2))

/-- Embeds `hostCache.ReleaseHoldForPods` (hostcache.go lines 304-317): every
pod id is released on the summary and removed from `podHeldIndex`. -/
def CacheState.ReleaseHoldForPods (c : CacheState) (hostname : String)
    (podIDs : List String) : CacheState × Option CacheError :=
  match lookupL hostname c.hostIndex with
  | none => (c, some (CacheError.NotFound hostname))
  | some hs =>
    let r := podIDs.foldl
      (fun (acc : HostSummary × List (String × String)) id =>
        (acc.1.ReleaseHoldForPod id, removePodHold acc.2 id))
      (hs, c.podHeldIndex)
    ({ hostIndex := insertL hostname r.1 c.hostIndex, podHeldIndex := r.2 }, none)

/-- Embeds `hostCache.GetClusterCapacity` (hostcache.go lines 234-247): fold
`Add` of every summary's capacity and allocation over the index. -/
def CacheState.GetClusterCapacity (c : CacheState) : Resources × Resources :=
  c.hostIndex.foldl
    (fun acc p => (acc.1.Add p.2.capacity, acc.2.Add p.2.allocated))
    (Resources.zero, Resources.zero)

/-- Embeds `hostCache.addHost` (hostcache.go lines 414-453): reject older
versions against an existing summary, otherwise overwrite the index entry
with a fresh Kubelet summary. -/
def CacheState.addHost (c : CacheState) (event : HostEvent) : CacheState :=
  let hostInfo := event.hostInfo
  let version := hostInfo.resourceVersion
  let capacity := hostInfo.capacity
  let fresh := newKubeletHostSummary hostInfo.hostname capacity version
  let store : CacheState :=
    { c with hostIndex := insertL hostInfo.hostname fresh c.hostIndex }
  match lookupL hostInfo.hostname c.hostIndex with
  | some existing =>
    if IsOldVersion existing.version hostInfo.resourceVersion then c else store
  | none => store

/-- Embeds `hostCache.updateHostSpec` (hostcache.go lines 455-500): ignore if
the host is absent or the event's version is old, otherwise set capacity and
version. -/
def CacheState.updateHostSpec (c : CacheState) (event : HostEvent) : CacheState :=
  let hostInfo := event.hostInfo
  let evtVersion := hostInfo.resourceVersion
  match lookupL hostInfo.hostname c.hostIndex with
  | none => c
  | some hs =>
    if IsOldVersion hs.version evtVersion then c
    else
      let r := FromPelotonResources hostInfo.capacity
      let hs2 := (hs.SetCapacity r).SetVersion evtVersion
      { c with hostIndex := insertL hostInfo.hostname hs2 c.hostIndex }

/-- Embeds `hostCache.deleteHost` (hostcache.go lines 502-532): reject older
versions against an existing summary, otherwise delete the index entry.  The
`podHeldIndex` is not touched. -/
def CacheState.deleteHost (c : CacheState) (event : HostEvent) : CacheState :=
  let hostInfo := event.hostInfo
  let del : CacheState := { c with hostIndex := eraseL hostInfo.hostname c.hostIndex }
  match lookupL hostInfo.hostname c.hostIndex with
  | some existing =>
    if IsOldVersion existing.version hostInfo.resourceVersion then c else del
  | none => del

/-- Embeds `hostCache.updateHostAvailable` (hostcache.go lines 535-560):
create a Mesos summary if absent, then set available and version.  There is
no version comparison in this handler. -/
def CacheState.updateHostAvailable (c : CacheState) (event : HostEvent) : CacheState :=
  let hostInfo := event.hostInfo
  let evtVersion := hostInfo.resourceVersion
  let hs := match lookupL hostInfo.hostname c.hostIndex with
    | some hs => hs
    | none => newMesosHostSummary hostInfo.hostname evtVersion
  let r := FromPelotonResources hostInfo.available
  let hs2 := (hs.SetAvailable r).SetVersion evtVersion
  { c with hostIndex := insertL hostInfo.hostname hs2 c.hostIndex }

/-- Embeds the dispatch in `hostCache.waitForHostEvents` (hostcache.go lines
352-370): one ingested host event. -/
def CacheState.applyHostEvent (c : CacheState) (event : HostEvent) : CacheState :=
  match event.eventType with
  | HostEventType.AddHost => c.addHost event
  | HostEventType.UpdateHostSpec => c.updateHostSpec event
  | HostEventType.DeleteHost => c.deleteHost event
  | HostEventType.UpdateHostAvailableRes => c.updateHostAvailable event

/-! ### Matcher and AcquireLeases (`matcher.go` is not among the sources;
modelled from spec §4.3; the loop structure is from hostcache.go) -/

/-- Filter-result tags: the closed reason set of spec §4.3 step 3, plus the
match tag itself, which the returned counts map also tallies (hostcache.go's
AcquireLeases doc comment: "map filtering result string ... to number of
hosts per result"; spec §8 filter-counts completeness law). -/
inductive FilterResult where
  | MATCH
  | MISMATCH_STATUS
  | INSUFFICIENT_RESOURCES
  | MISMATCH_LABELS
  | MISMATCH_CONSTRAINTS
  | MATCH_MAX_HOST_LIMIT
deriving DecidableEq, Repr

/-- Modelled from the spec: the host filter (§4.3): a minimum resource
constraint, a host-hint list, and a max-hosts cap where 0 encodes the
spec's "default unlimited".  Label and scheduling constraints are not
exercised by any claim and are omitted. -/
structure HostFilter where
  minResources : Resources
  hostHints : List String
  maxHosts : Nat
deriving DecidableEq, Repr

/-- Modelled from the spec: the read-only feasibility test `TryMatch` (§4.2):
the host must be Ready or Held (else `MISMATCH_STATUS`) and its available
resources must contain the filter's minimum (else
`INSUFFICIENT_RESOURCES`). -/
def HostSummary.TryMatch (hs : HostSummary) (f : HostFilter) : FilterResult :=
  if hs.status = HostStatus.Placing then FilterResult.MISMATCH_STATUS
  else if hs.available.Contains f.minResources then FilterResult.MATCH
  else FilterResult.INSUFFICIENT_RESOURCES

/-- Increment the tally of one filter result. -/
def bumpCount : List (FilterResult × Nat) → FilterResult → List (FilterResult × Nat)
  | [], r => [(r, 1)]
  | (r2, n) :: t, r => if r2 = r then (r2, n + 1) :: t else (r2, n) :: bumpCount t r

/-- Sum of the values of the filter-counts map. -/
def sumCounts (fc : List (FilterResult × Nat)) : Nat :=
  (fc.map Prod.snd).sum

/-- Modelled from the spec: matcher state (§4.3): the ordered list of matched
hostnames, the per-reason counts, and the hostnames already evaluated (step 2
iterates the "remaining" hostnames, so a hostname is evaluated at most
once). -/
structure Matcher where
  hostNames : List String
  filterCounts : List (FilterResult × Nat)
  tried : List String
deriving DecidableEq, Repr

/-- Modelled from the spec: `NewMatcher(hostFilter)` starts empty. -/
def NewMatcher (f : HostFilter) : Matcher :=
  ⟨[], [], []⟩

/-- Modelled from the spec: the host cap test; `maxHosts = 0` means
unlimited (§4.3: `host_limit` default unlimited). -/
def Matcher.hostLimitReached (m : Matcher) (f : HostFilter) : Bool :=
  decide (f.maxHosts ≠ 0) && decide (f.maxHosts ≤ m.hostNames.length)

/-- Modelled from the spec: one `matcher.tryMatch` step (§4.3 steps 1-3):
stop at the cap, evaluate each hostname at most once, tally the outcome, and
record the hostname in order on a match. -/
def Matcher.tryMatch (m : Matcher) (f : HostFilter) (hostname : String)
    (hs : HostSummary) : Matcher :=
  if m.hostLimitReached f then m
  else if m.tried.contains hostname then m
  else
    let res := hs.TryMatch f
    { hostNames := if res = FilterResult.MATCH then m.hostNames ++ [hostname]
        else m.hostNames
      filterCounts := bumpCount m.filterCounts res
      tried := hostname :: m.tried }

/-- The hint loop of `AcquireLeases` (hostcache.go lines 140-147): hints are
looked up in the index; a found hint is evaluated under its summary's
hostname; the loop breaks when the cap is reached. -/
def runHints (f : HostFilter) (idx : List (String × HostSummary)) :
    List String → Matcher → Matcher
  | [], m => m
  | hint :: rest, m =>
    match lookupL hint idx with
    | none => runHints f idx rest m
    | some hs =>
      let m2 := m.tryMatch f hs.hostname hs
      if m2.hostLimitReached f then m2 else runHints f idx rest m2

/-- The index loop of `AcquireLeases` (hostcache.go lines 150-155); the list
argument is the iteration order the Go runtime chose for the map range. -/
def runIndex (f : HostFilter) : List (String × HostSummary) → Matcher → Matcher
  | [], m => m
  | (hostname, hs) :: rest, m =>
    let m2 := m.tryMatch f hostname hs
    if m2.hostLimitReached f then m2 else runIndex f rest m2

/-- The matcher state after both loops of `hostCache.AcquireLeases`
(hostcache.go lines 131-155), for one iteration order of the host index. -/
def acquireMatcher (f : HostFilter) (idx : List (String × HostSummary)) : Matcher :=
  runIndex f idx (runHints f idx f.hostHints (NewMatcher f))

/-- Embeds `hostCache.AcquireLeases` (hostcache.go lines 131-173) over one
iteration order `idx` of the host index: hint loop, index loop, then one
lease per matched hostname via `GetHostLease`. -/
def AcquireLeases (f : HostFilter) (idx : List (String × HostSummary)) :
    List HostLease × List (FilterResult × Nat) :=
  let m := acquireMatcher f idx
  (m.hostNames.filterMap
    (fun hostname => (lookupL hostname idx).map HostSummary.GetHostLease),
    m.filterCounts)

/-! ### Supporting lemmas and concrete fixtures -/

theorem lookupL_mem {α : Type} {k : String} {v : α} {l : List (String × α)}
    (h : lookupL k l = some v) : (k, v) ∈ l := by
  induction l with
  | nil => simp [lookupL] at h
  | cons p t ih =>
    obtain ⟨k2, v2⟩ := p
    by_cases h2 : k2 = k
    · subst h2
      have hv : v2 = v := by simpa [lookupL] using h
      subst hv
      exact List.mem_cons_self _ _
    · simp only [lookupL, if_neg h2] at h
      exact List.mem_cons_of_mem _ (ih h)

theorem lookupL_of_mem {α : Type} {l : List (String × α)} (hnd : keysNodup l)
    {p : String × α} (hp : p ∈ l) : lookupL p.1 l = some p.2 := by
  induction l with
  | nil => simp at hp
  | cons q t ih =>
    obtain ⟨k2, v2⟩ := q
    simp only [keysNodup, List.map_cons, List.nodup_cons] at hnd
    rcases List.mem_cons.mp hp with h | hp2
    · subst h
      show lookupL k2 ((k2, v2) :: t) = some v2
      simp [lookupL]
    · have hne : ¬(k2 = p.1) := by
        intro e
        apply hnd.1
        rw [e]
        exact List.mem_map_of_mem Prod.fst hp2
      simp only [lookupL, if_neg hne]
      exact ih hnd.2 hp2

theorem contains_iff_mem (l : List String) (a : String) :
    l.contains a = true ↔ a ∈ l := by
  simp

theorem mem_insertL {α : Type} {k : String} {v : α} {l : List (String × α)}
    (hnd : keysNodup l) (p : String × α) :
    p ∈ insertL k v l ↔ (p = (k, v) ∨ (p ∈ l ∧ p.1 ≠ k)) := by
  induction l with
  | nil =>
    simp [insertL]
  | cons q t ih =>
    obtain ⟨k2, v2⟩ := q
    simp only [keysNodup, List.map_cons, List.nodup_cons] at hnd
    have ih2 := ih hnd.2
    by_cases h2 : k2 = k
    · subst h2
      have hins : insertL k2 v ((k2, v2) :: t) = (k2, v) :: t := by
        simp [insertL]
      rw [hins]
      simp only [List.mem_cons]
      constructor
      · rintro (h | h)
        · exact Or.inl h
        · refine Or.inr ⟨Or.inr h, ?_⟩
          intro e
          apply hnd.1
          rw [← e]
          exact List.mem_map_of_mem Prod.fst h
      · rintro (h | ⟨hp, hne⟩)
        · exact Or.inl h
        · rcases hp with h | h
          · exact absurd (by rw [h]) hne
          · exact Or.inr h
    · have hins : insertL k v ((k2, v2) :: t) = (k2, v2) :: insertL k v t := by
        simp [insertL, h2]
      rw [hins]
      simp only [List.mem_cons, ih2]
      constructor
      · rintro (h | h | ⟨hp, hne⟩)
        · refine Or.inr ⟨Or.inl h, ?_⟩
          rw [h]
          exact h2
        · exact Or.inl h
        · exact Or.inr ⟨Or.inr hp, hne⟩
      · rintro (h | ⟨hp, hne⟩)
        · exact Or.inr (Or.inl h)
        · rcases hp with h | h
          · exact Or.inl h
          · exact Or.inr (Or.inr ⟨h, hne⟩)

/-! ### Claim C3: `IsOldVersion` semantics -/

theorem goParseUint64_of_parses {s : String} (h : parsesAsUint s = true) :
    goParseUint64 s = digitsVal s.data := by
  unfold parsesAsUint at h
  rw [Bool.and_eq_true, Bool.and_eq_true] at h
  have hlt : digitsVal s.data < 2 ^ 64 := of_decide_eq_true h.2
  unfold goParseUint64
  rw [if_pos (by rw [Bool.and_eq_true]; exact h.1)]
  exact Nat.min_eq_left (Nat.le_sub_one_of_lt hlt)

/-- C3 counterexample: with two unparseable versions, the spec's string
comparison says "a" is older than "b", but the code treats both as 0 and
returns false; the claimed string-comparison fallback does not exist. -/
theorem isOldVersion_string_fallback_counterexample :
    IsOldVersionSpec "b" "a" = true ∧ IsOldVersion "b" "a" = false := by
  constructor
  · decide
  · decide

/-- C3 (amended): when both version strings parse as unsigned 64-bit
integers, `IsOldVersion(old, new)` returns exactly `parse_uint(new) <
parse_uint(old)` (agreeing with the spec's first clause), and
`IsOldVersion(v, v)` is false for every `v`; but a string that fails to
parse is treated as the value 0 (and an overflowing one as `2^64 - 1`)
instead of falling back to string comparison. -/
theorem isOldVersion_numeric_no_string_fallback (oldV newV v : String)
    (ho : parsesAsUint oldV = true) (hn : parsesAsUint newV = true) :
    IsOldVersion oldV newV = IsOldVersionSpec oldV newV ∧
      IsOldVersion v v = false := by
  constructor
  · unfold IsOldVersion IsOldVersionSpec
    rw [goParseUint64_of_parses ho, goParseUint64_of_parses hn, if_pos]
    rw [ho, hn]
    rfl
  · unfold IsOldVersion
    simp

/-- Witness for C3's amended theorem at versions "5" and "3". -/
theorem isOldVersion_numeric_no_string_fallback_witness :
    parsesAsUint "5" = true ∧ parsesAsUint "3" = true ∧
      (IsOldVersion "5" "3" = IsOldVersionSpec "5" "3" ∧
        IsOldVersion "xyz" "xyz" = false) :=
  ⟨by decide, by decide,
    isOldVersion_numeric_no_string_fallback "5" "3" "xyz" (by decide) (by decide)⟩

/-! ### Claim C6: stale UpdateHostSpec after AddHost -/

/-- Capacity C1 of the spec's scenario 4. -/
def capC1 : PResources := ⟨4, 8192, 10000, 0⟩

/-- Capacity C2 of the spec's scenario 4. -/
def capC2 : PResources := ⟨2, 4096, 10000, 0⟩

/-- AddHost(h1, capacity=C1, version="5"). -/
def addH1V5 : HostEvent :=
  ⟨⟨"h1", capC1, "5", ⟨0, 0, 0, 0⟩⟩, HostEventType.AddHost⟩

/-- UpdateHostSpec(h1, capacity=C2, version="3"). -/
def updH1V3 : HostEvent :=
  ⟨⟨"h1", capC2, "3", ⟨0, 0, 0, 0⟩⟩, HostEventType.UpdateHostSpec⟩

/-- C6: ingesting AddHost(h1, C1, "5") then UpdateHostSpec(h1, C2, "3")
leaves h1 in the index with capacity C1; the stale event is ignored. -/
theorem stale_update_event_ignored :
    (lookupL "h1"
        (((CacheState.mk [] []).applyHostEvent addH1V5).applyHostEvent
          updH1V3).hostIndex).map HostSummary.capacity =
      some (FromPelotonResources capC1) ∧
    FromPelotonResources capC1 ≠ FromPelotonResources capC2 := by
  constructor
  · decide
  · decide

/-! ### Claim C7: absent hostname yields NotFound, state unchanged -/

/-- C7: for a hostname absent from the host index, TerminateLease,
CompleteLease, HoldForPods and ReleaseHoldForPods each return a NotFound
error and leave the cache state unchanged. -/
theorem absent_host_returns_not_found (c : CacheState) (hostname leaseID : String)
    (podToResMap : List (String × Resources)) (podIDs : List String)
    (h : lookupL hostname c.hostIndex = none) :
    c.TerminateLease hostname leaseID = (c, some (CacheError.NotFound hostname)) ∧
    c.CompleteLease hostname leaseID podToResMap =
      (c, some (CacheError.NotFound hostname)) ∧
    c.HoldForPods hostname podIDs = (c, some (CacheError.NotFound hostname)) ∧
    c.ReleaseHoldForPods hostname podIDs =
      (c, some (CacheError.NotFound hostname)) := by
  refine ⟨?_, ?_, ?_, ?_⟩ <;>
    simp [CacheState.TerminateLease, CacheState.CompleteLease,
      CacheState.HoldForPods, CacheState.ReleaseHoldForPods, h]

/-- Witness for C7 on a one-host cache queried with a different hostname. -/
theorem absent_host_returns_not_found_witness :
    lookupL "h9" (CacheState.mk [("h1", newKubeletHostSummary "h1" capC1 "5")]
        []).hostIndex = none ∧
    ((CacheState.mk [("h1", newKubeletHostSummary "h1" capC1 "5")]
        []).TerminateLease "h9" "lease1" =
      (CacheState.mk [("h1", newKubeletHostSummary "h1" capC1 "5")] [],
        some (CacheError.NotFound "h9"))) :=
  ⟨by decide,
    (absent_host_returns_not_found
      (CacheState.mk [("h1", newKubeletHostSummary "h1" capC1 "5")] [])
      "h9" "lease1" [] [] (by decide)).1⟩

/-! ### Claim C2: version check on host events -/

/-- C2 (amended): for AddHost, UpdateHostSpec and DeleteHost events whose
hostname resolves to an existing summary, an event with an old version is
rejected and the whole cache state is left unchanged; the
UpdateHostAvailableRes handler performs no version check at all (see the
counterexample). -/
theorem old_version_rejected_for_add_update_delete (c : CacheState)
    (event : HostEvent) (hs : HostSummary)
    (hfound : lookupL event.hostInfo.hostname c.hostIndex = some hs)
    (hver : IsOldVersion hs.version event.hostInfo.resourceVersion = true)
    (hkind : event.eventType = HostEventType.AddHost ∨
      event.eventType = HostEventType.UpdateHostSpec ∨
      event.eventType = HostEventType.DeleteHost) :
    c.applyHostEvent event = c := by
  rcases hkind with hk | hk | hk <;>
    simp [CacheState.applyHostEvent, hk, CacheState.addHost,
      CacheState.updateHostSpec, CacheState.deleteHost, hfound, hver]

/-- A summary as created by AddHost(h1, C1, "5"), used by several claims. -/
def h1SummaryV5 : HostSummary := newKubeletHostSummary "h1" capC1 "5"

/-- A one-host cache state holding h1 at version "5". -/
def oneHostCache : CacheState := CacheState.mk [("h1", h1SummaryV5)] []

/-- Witness for C2's amended theorem: a stale AddHost against the one-host
cache is dropped. -/
theorem old_version_rejected_for_add_update_delete_witness :
    lookupL "h1" oneHostCache.hostIndex = some h1SummaryV5 ∧
    IsOldVersion h1SummaryV5.version "3" = true ∧
    oneHostCache.applyHostEvent
        ⟨⟨"h1", capC2, "3", ⟨0, 0, 0, 0⟩⟩, HostEventType.AddHost⟩ = oneHostCache :=
  ⟨by decide, by decide,
    old_version_rejected_for_add_update_delete oneHostCache
      ⟨⟨"h1", capC2, "3", ⟨0, 0, 0, 0⟩⟩, HostEventType.AddHost⟩ h1SummaryV5
      (by decide) (by decide) (Or.inl rfl)⟩

/-- A Mesos-kind summary at version "5" with some available resources. -/
def mesosSummaryV5 : HostSummary :=
  { newMesosHostSummary "m1" "5" with available := ⟨1, 1, 1, 1⟩ }

/-- An UpdateHostAvailableRes event for m1 carrying the older version "3". -/
def availEventV3 : HostEvent :=
  ⟨⟨"m1", ⟨0, 0, 0, 0⟩, "3", ⟨2, 2, 2, 2⟩⟩, HostEventType.UpdateHostAvailableRes⟩

/-- C2 counterexample: an UpdateHostAvailableRes event whose version "3" is
older than the existing summary's "5" is applied anyway — the summary's
available resources and version change, so the event is not rejected. -/
theorem updateHostAvailable_skips_version_check :
    IsOldVersion mesosSummaryV5.version availEventV3.hostInfo.resourceVersion
        = true ∧
    (CacheState.mk [("m1", mesosSummaryV5)] []).applyHostEvent availEventV3 ≠
      CacheState.mk [("m1", mesosSummaryV5)] [] := by
  constructor
  · decide
  · decide

/-! ### Claim C9: AddHost replaces an existing summary wholesale -/

/-- C9: an AddHost event for a hostname already in the index, carrying a
version that is not older (equal included), replaces the summary with a
fresh Kubelet-kind summary built only from the event's hostname, capacity
and version: its pods, holds, lease and allocation are all empty, so the
previous summary's state is discarded. -/
theorem addHost_replaces_existing_summary (c : CacheState) (event : HostEvent)
    (old : HostSummary)
    (hfound : lookupL event.hostInfo.hostname c.hostIndex = some old)
    (hver : IsOldVersion old.version event.hostInfo.resourceVersion = false)
    (hkind : event.eventType = HostEventType.AddHost) :
    lookupL event.hostInfo.hostname (c.applyHostEvent event).hostIndex =
      some (newKubeletHostSummary event.hostInfo.hostname
        event.hostInfo.capacity event.hostInfo.resourceVersion) ∧
    (newKubeletHostSummary event.hostInfo.hostname event.hostInfo.capacity
        event.hostInfo.resourceVersion).pods = [] ∧
    (newKubeletHostSummary event.hostInfo.hostname event.hostInfo.capacity
        event.hostInfo.resourceVersion).holds = [] ∧
    (newKubeletHostSummary event.hostInfo.hostname event.hostInfo.capacity
        event.hostInfo.resourceVersion).leaseID = none ∧
    (newKubeletHostSummary event.hostInfo.hostname event.hostInfo.capacity
        event.hostInfo.resourceVersion).allocated = Resources.zero ∧
    (newKubeletHostSummary event.hostInfo.hostname event.hostInfo.capacity
        event.hostInfo.resourceVersion).kind = SummaryKind.Kubelet := by
  refine ⟨?_, rfl, rfl, rfl, rfl, rfl⟩
  simp [CacheState.applyHostEvent, hkind, CacheState.addHost, hfound, hver,
    lookupL_insertL_self]

/-- A held, non-empty h1 summary: one running pod, one held pod, allocation
and a version "5". -/
def busySummaryV5 : HostSummary :=
  { h1SummaryV5 with
    status := HostStatus.Held
    allocated := ⟨2, 4096, 0, 0⟩
    pods := [("p0", ⟨2, 4096, 0, 0⟩)]
    holds := ["ph"] }

/-- Witness for C9: re-adding h1 at the equal version "5" wipes the busy
summary. -/
theorem addHost_replaces_existing_summary_witness :
    lookupL "h1" (CacheState.mk [("h1", busySummaryV5)] []).hostIndex =
        some busySummaryV5 ∧
    IsOldVersion busySummaryV5.version "5" = false ∧
    lookupL "h1" ((CacheState.mk [("h1", busySummaryV5)] []).applyHostEvent
        ⟨⟨"h1", capC2, "5", ⟨0, 0, 0, 0⟩⟩, HostEventType.AddHost⟩).hostIndex =
      some (newKubeletHostSummary "h1" capC2 "5") :=
  ⟨by decide, by decide,
    (addHost_replaces_existing_summary (CacheState.mk [("h1", busySummaryV5)] [])
      ⟨⟨"h1", capC2, "5", ⟨0, 0, 0, 0⟩⟩, HostEventType.AddHost⟩ busySummaryV5
      (by decide) (by decide) rfl).1⟩

/-! ### Claim C8: GetClusterCapacity is a componentwise sum -/

theorem clusterCapacityFold (l : List (String × HostSummary))
    (init : Resources × Resources) :
    l.foldl (fun acc p => (acc.1.Add p.2.capacity, acc.2.Add p.2.allocated)) init =
      (⟨init.1.cpu + (l.map (fun p => p.2.capacity.cpu)).sum,
        init.1.memMb + (l.map (fun p => p.2.capacity.memMb)).sum,
        init.1.diskMb + (l.map (fun p => p.2.capacity.diskMb)).sum,
        init.1.gpu + (l.map (fun p => p.2.capacity.gpu)).sum⟩,
       ⟨init.2.cpu + (l.map (fun p => p.2.allocated.cpu)).sum,
        init.2.memMb + (l.map (fun p => p.2.allocated.memMb)).sum,
        init.2.diskMb + (l.map (fun p => p.2.allocated.diskMb)).sum,
        init.2.gpu + (l.map (fun p => p.2.allocated.gpu)).sum⟩) := by
  induction l generalizing init with
  | nil =>
    obtain ⟨⟨a1, a2, a3, a4⟩, ⟨b1, b2, b3, b4⟩⟩ := init
    simp
  | cons p t ih =>
    rw [List.foldl_cons, ih]
    obtain ⟨⟨a1, a2, a3, a4⟩, ⟨b1, b2, b3, b4⟩⟩ := init
    simp only [Resources.Add, List.map_cons, List.sum_cons, Prod.mk.injEq,
      Resources.mk.injEq]
    refine ⟨⟨by ring, by ring, by ring, by ring⟩, by ring, by ring, by ring, by ring⟩

/-- C8: GetClusterCapacity returns, over the one index snapshot it is given,
the componentwise sum of every summary's capacity as the first component and
the componentwise sum of every summary's allocated resources as the
second. -/
theorem getClusterCapacity_componentwise_sums (c : CacheState) :
    c.GetClusterCapacity =
      (⟨(c.hostIndex.map (fun p => p.2.capacity.cpu)).sum,
        (c.hostIndex.map (fun p => p.2.capacity.memMb)).sum,
        (c.hostIndex.map (fun p => p.2.capacity.diskMb)).sum,
        (c.hostIndex.map (fun p => p.2.capacity.gpu)).sum⟩,
       ⟨(c.hostIndex.map (fun p => p.2.allocated.cpu)).sum,
        (c.hostIndex.map (fun p => p.2.allocated.memMb)).sum,
        (c.hostIndex.map (fun p => p.2.allocated.diskMb)).sum,
        (c.hostIndex.map (fun p => p.2.allocated.gpu)).sum⟩) := by
  unfold CacheState.GetClusterCapacity
  rw [clusterCapacityFold]
  simp [Resources.zero]

/-! ### Claim C10: HoldForPods failure wrapping and partial effects -/

theorem holdLoop_placing (hostname : String) (podIDs : List String)
    (hs : HostSummary) (phi : List (String × String)) (errs : List PodHoldError)
    (h : hs.status = HostStatus.Placing) :
    podIDs.foldl (holdStep hostname) (hs, phi, errs) =
      (hs, phi, errs ++ podIDs.map (fun _ => PodHoldError.ConflictingStatus)) := by
  induction podIDs generalizing errs with
  | nil => simp
  | cons q t ih =>
    have hstep : holdStep hostname (hs, phi, errs) q =
        (hs, phi, errs ++ [PodHoldError.ConflictingStatus]) := by
      simp [holdStep, HostSummary.HoldForPod, h]
    rw [List.foldl_cons, hstep, ih]
    simp

theorem holdLoop_not_placing (hostname : String) (podIDs : List String)
    (hs : HostSummary) (phi : List (String × String))
    (h : ¬ hs.status = HostStatus.Placing) :
    (podIDs.foldl (holdStep hostname) (hs, phi, [])).2.2 = [] ∧
    (∀ p, lookupL p (podIDs.foldl (holdStep hostname) (hs, phi, [])).2.1 =
      if p ∈ podIDs then some hostname else lookupL p phi) ∧
    (∀ p, p ∈ (podIDs.foldl (holdStep hostname) (hs, phi, [])).1.holds ↔
      (p ∈ hs.holds ∨ p ∈ podIDs)) ∧
    (podIDs.foldl (holdStep hostname) (hs, phi, [])).1.hostname = hs.hostname ∧
    (keysNodup phi → keysNodup (podIDs.foldl (holdStep hostname) (hs, phi, [])).2.1) := by
  induction podIDs generalizing hs phi with
  | nil =>
    refine ⟨rfl, fun p => by simp, fun p => by simp, rfl, fun hn => hn⟩
  | cons q t ih =>
    have hstep : holdStep hostname (hs, phi, []) q =
        ({ hs with
            holds := if hs.holds.contains q then hs.holds else hs.holds ++ [q]
            status := HostStatus.Held }, insertL q hostname phi, []) := by
      simp [holdStep, HostSummary.HoldForPod, h, addPodHold]
    have h1 : ¬ ({ hs with
        holds := if hs.holds.contains q then hs.holds else hs.holds ++ [q]
        status := HostStatus.Held } : HostSummary).status = HostStatus.Placing := by
      simp
    obtain ⟨ih1, ih2, ih3, ih4, ih5⟩ := ih _ (insertL q hostname phi) h1
    rw [List.foldl_cons, hstep]
    refine ⟨ih1, ?_, ?_, ih4, fun hn => ih5 (keysNodup_insertL q hostname phi hn)⟩
    · intro p
      rw [ih2 p]
      by_cases hpt : p ∈ t
      · simp [hpt]
      · by_cases hpq : p = q
        · subst hpq
          simp [hpt, lookupL_insertL_self]
        · rw [lookupL_insertL_ne _ _ hpq]
          simp [hpt, hpq]
    · intro p
      rw [ih3 p]
      by_cases hc : hs.holds.contains q
      · have hqm : q ∈ hs.holds := (contains_iff_mem _ _).mp hc
        have hrw : (if hs.holds.contains q then hs.holds else hs.holds ++ [q]) =
            hs.holds := by
          simp [hqm]
        rw [hrw]
        simp only [List.mem_cons]
        constructor
        · rintro (hp | hp)
          · exact Or.inl hp
          · exact Or.inr (Or.inr hp)
        · rintro (hp | hp | hp)
          · exact Or.inl hp
          · exact Or.inl (hp ▸ hqm)
          · exact Or.inr hp
      · have hqn : q ∉ hs.holds := by simpa using hc
        have hrw : (if hs.holds.contains q then hs.holds else hs.holds ++ [q]) =
            hs.holds ++ [q] := by
          simp [hqn]
        rw [hrw]
        simp only [List.mem_append, List.mem_cons, List.not_mem_nil, or_false]
        constructor
        · rintro ((hp | hp) | hp)
          · exact Or.inl hp
          · exact Or.inr (Or.inl hp)
          · exact Or.inr (Or.inr hp)
        · rintro (hp | hp | hp)
          · exact Or.inl (Or.inl hp)
          · exact Or.inl (Or.inr hp)
          · exact Or.inr hp

/-- C10: for an existing host, whenever HoldForPods returns an error, that
error is the single Internal tag wrapping the list of per-pod failures (one
ConflictingStatus per requested pod), not a bare per-pod tag; and whenever
the per-pod holds succeed (host not Placing), every requested pod is
committed immediately: it is recorded in podHeldIndex and kept in the
summary's holds, with no rollback step anywhere in the call. -/
theorem holdForPods_internal_error_and_partial_holds (c : CacheState)
    (hostname : String) (podIDs : List String) (hs : HostSummary)
    (hfound : lookupL hostname c.hostIndex = some hs) :
    (∀ e, (c.HoldForPods hostname podIDs).2 = some e →
      e = CacheError.Internal
        (podIDs.map (fun _ => PodHoldError.ConflictingStatus))) ∧
    (¬ hs.status = HostStatus.Placing →
      (c.HoldForPods hostname podIDs).2 = none ∧
      ∀ p ∈ podIDs,
        lookupL p (c.HoldForPods hostname podIDs).1.podHeldIndex = some hostname ∧
        ∃ hs2,
          lookupL hostname (c.HoldForPods hostname podIDs).1.hostIndex = some hs2 ∧
            p ∈ hs2.holds) := by
  by_cases hplacing : hs.status = HostStatus.Placing
  · have hr := holdLoop_placing hostname podIDs hs c.podHeldIndex [] hplacing
    constructor
    · intro e he
      simp only [CacheState.HoldForPods, hfound, hr, List.nil_append] at he
      by_cases hp : podIDs = []
      · subst hp
        simp at he
      · have : ¬ (podIDs.map (fun _ => PodHoldError.ConflictingStatus)).isEmpty = true := by
          simp [List.isEmpty_iff, hp]
        rw [if_neg this] at he
        exact (Option.some_inj.mp he).symm
    · intro hnp
      exact absurd hplacing hnp
  · obtain ⟨h1, h2, h3, h4, h5⟩ :=
      holdLoop_not_placing hostname podIDs hs c.podHeldIndex hplacing
    constructor
    · intro e he
      simp only [CacheState.HoldForPods, hfound, h1] at he
      simp at he
    · intro hnp
      constructor
      · simp only [CacheState.HoldForPods, hfound, h1]
        rfl
      · intro p hp
        constructor
        · simp only [CacheState.HoldForPods, hfound]
          rw [h2 p]
          simp [hp]
        · refine ⟨(podIDs.foldl (holdStep hostname) (hs, c.podHeldIndex, [])).1, ?_, ?_⟩
          · simp only [CacheState.HoldForPods, hfound]
            exact lookupL_insertL_self _ _ _
          · exact (h3 p).mpr (Or.inr hp)

/-- A Placing h1 summary holding an active lease. -/
def placingSummary : HostSummary :=
  { h1SummaryV5 with status := HostStatus.Placing, leaseID := some "L1" }

/-- A one-host cache whose only host is in Placing status. -/
def placingCache : CacheState := CacheState.mk [("h1", placingSummary)] []

/-- Witness for C10: holding two pods on a Placing host really returns the
Internal error wrapping both per-pod failures. -/
theorem holdForPods_internal_error_and_partial_holds_witness :
    lookupL "h1" placingCache.hostIndex = some placingSummary ∧
    (placingCache.HoldForPods "h1" ["p1", "p2"]).2 =
      some (CacheError.Internal
        [PodHoldError.ConflictingStatus, PodHoldError.ConflictingStatus]) ∧
    (∀ e, (placingCache.HoldForPods "h1" ["p1", "p2"]).2 = some e →
      e = CacheError.Internal
        (["p1", "p2"].map (fun _ => PodHoldError.ConflictingStatus))) :=
  ⟨by decide, by decide,
    (holdForPods_internal_error_and_partial_holds placingCache "h1" ["p1", "p2"]
      placingSummary (by decide)).1⟩

/-! ### Claim C4: matched order and (non-)determinism of AcquireLeases -/

theorem tryMatch_hostNames (m : Matcher) (f : HostFilter) (hn : String)
    (hs : HostSummary) :
    (m.tryMatch f hn hs).hostNames = m.hostNames ∨
      (m.tryMatch f hn hs).hostNames = m.hostNames ++ [hn] := by
  unfold Matcher.tryMatch
  by_cases h1 : m.hostLimitReached f
  · rw [if_pos h1]
    exact Or.inl rfl
  · rw [if_neg h1]
    by_cases h2 : m.tried.contains hn
    · rw [if_pos h2]
      exact Or.inl rfl
    · rw [if_neg h2]
      by_cases h3 : hs.TryMatch f = FilterResult.MATCH
      · right
        simp [h3]
      · left
        simp [h3]

theorem runIndex_hostNames (f : HostFilter) (l : List (String × HostSummary))
    (m : Matcher) :
    ∃ t, (runIndex f l m).hostNames = m.hostNames ++ t ∧
      t.Sublist (l.map Prod.fst) := by
  induction l generalizing m with
  | nil => exact ⟨[], by simp [runIndex], List.nil_sublist _⟩
  | cons p rest ih =>
    obtain ⟨hn, hs⟩ := p
    simp only [runIndex]
    by_cases hl : (m.tryMatch f hn hs).hostLimitReached f
    · rw [if_pos hl]
      rcases tryMatch_hostNames m f hn hs with h | h
      · exact ⟨[], by simp [h], List.nil_sublist _⟩
      · refine ⟨[hn], by simp [h], ?_⟩
        simp only [List.map_cons]
        exact List.singleton_sublist.mpr (List.mem_cons_self _ _)
    · rw [if_neg hl]
      obtain ⟨t, ht, hsub⟩ := ih (m.tryMatch f hn hs)
      rcases tryMatch_hostNames m f hn hs with h | h
      · refine ⟨t, by rw [ht, h], ?_⟩
        simp only [List.map_cons]
        exact hsub.cons _
      · refine ⟨hn :: t, ?_, ?_⟩
        · rw [ht, h, List.append_assoc]
          rfl
        · simp only [List.map_cons]
          exact hsub.cons₂ _

theorem runHints_cons_none (f : HostFilter) (idx : List (String × HostSummary))
    (hint : String) (rest : List String) (m : Matcher)
    (hlk : lookupL hint idx = none) :
    runHints f idx (hint :: rest) m = runHints f idx rest m := by
  simp only [runHints, hlk]

theorem runHints_cons_some (f : HostFilter) (idx : List (String × HostSummary))
    (hint : String) (rest : List String) (m : Matcher) (hs : HostSummary)
    (hlk : lookupL hint idx = some hs) :
    runHints f idx (hint :: rest) m =
      if (m.tryMatch f hs.hostname hs).hostLimitReached f then
        m.tryMatch f hs.hostname hs
      else runHints f idx rest (m.tryMatch f hs.hostname hs) := by
  simp only [runHints, hlk]

theorem runHints_hostNames (f : HostFilter) (idx : List (String × HostSummary))
    (hcons : ∀ p ∈ idx, p.2.hostname = p.1)
    (hints : List String) (m : Matcher) :
    ∃ t, (runHints f idx hints m).hostNames = m.hostNames ++ t ∧
      t.Sublist hints := by
  induction hints generalizing m with
  | nil => exact ⟨[], by simp [runHints], List.nil_sublist _⟩
  | cons hint rest ih =>
    cases hlk : lookupL hint idx with
    | none =>
      rw [runHints_cons_none f idx hint rest m hlk]
      obtain ⟨t, ht, hsub⟩ := ih m
      exact ⟨t, ht, hsub.cons _⟩
    | some hs =>
      have hname : hs.hostname = hint := hcons (hint, hs) (lookupL_mem hlk)
      rw [runHints_cons_some f idx hint rest m hs hlk]
      by_cases hl : (m.tryMatch f hs.hostname hs).hostLimitReached f
      · rw [if_pos hl]
        rcases tryMatch_hostNames m f hs.hostname hs with h | h
        · exact ⟨[], by simp [h], List.nil_sublist _⟩
        · refine ⟨[hs.hostname], by simp [h], ?_⟩
          rw [hname]
          exact List.singleton_sublist.mpr (List.mem_cons_self _ _)
      · rw [if_neg hl]
        obtain ⟨t, ht, hsub⟩ := ih (m.tryMatch f hs.hostname hs)
        rcases tryMatch_hostNames m f hs.hostname hs with h | h
        · refine ⟨t, by rw [ht, h], hsub.cons _⟩
        · refine ⟨hs.hostname :: t, ?_, ?_⟩
          · rw [ht, h, List.append_assoc]
            rfl
          · rw [hname]
            exact hsub.cons₂ _

/-- C4 (amended): for one fixed iteration order of the index, the matched
hostnames decompose as a subsequence of the hint list (hint hosts first, in
hint order) followed by a subsequence of the index in its iteration order;
the iteration order is the Go map range order, which is neither sorted by
hostname nor a function of the map contents, so two calls over the same
snapshot can return different matched hostnames (see the counterexample). -/
theorem acquireLeases_hint_then_index_order (f : HostFilter)
    (idx : List (String × HostSummary))
    (hcons : ∀ p ∈ idx, p.2.hostname = p.1) :
    ∃ th ti, (acquireMatcher f idx).hostNames = th ++ ti ∧
      th.Sublist f.hostHints ∧ ti.Sublist (idx.map Prod.fst) := by
  unfold acquireMatcher
  obtain ⟨th, hth, hsubh⟩ :=
    runHints_hostNames f idx hcons f.hostHints (NewMatcher f)
  obtain ⟨ti, hti, hsubi⟩ :=
    runIndex_hostNames f idx (runHints f idx f.hostHints (NewMatcher f))
  refine ⟨th, ti, ?_, hsubh, hsubi⟩
  rw [hti, hth]
  simp [NewMatcher]

/-- A Ready Kubelet summary with unit resources used by the C4 fixtures. -/
def readySummary (name : String) : HostSummary :=
  newKubeletHostSummary name ⟨1, 1, 1, 1⟩ "1"

/-- A filter with no constraints, no hints and a cap of one host. -/
def oneHostFilter : HostFilter := ⟨Resources.zero, [], 1⟩

/-- The two-host index in iteration order a, b. -/
def idxAB : List (String × HostSummary) :=
  [("a", readySummary "a"), ("b", readySummary "b")]

/-- The same two-host index in iteration order b, a. -/
def idxBA : List (String × HostSummary) :=
  [("b", readySummary "b"), ("a", readySummary "a")]

/-- C4 counterexample: the two orders hold the same hostname-to-summary map
(they are permutations of each other), yet AcquireLeases matches host "a"
under one iteration order and host "b" under the other, so the result is not
determined by the snapshot and is not in sorted-by-hostname order. -/
theorem acquireLeases_depends_on_iteration_order :
    idxAB.Perm idxBA ∧
    (AcquireLeases oneHostFilter idxAB).1.map HostLease.hostname = ["a"] ∧
    (AcquireLeases oneHostFilter idxBA).1.map HostLease.hostname = ["b"] ∧
    (AcquireLeases oneHostFilter idxAB).1.map HostLease.hostname ≠
      (AcquireLeases oneHostFilter idxBA).1.map HostLease.hostname := by
  refine ⟨List.Perm.swap _ _ _, by decide, by decide, by decide⟩

/-- Witness for C4's amended theorem on the concrete two-host index. -/
theorem acquireLeases_hint_then_index_order_witness :
    (∀ p ∈ idxAB, p.2.hostname = p.1) ∧
    (∃ th ti, (acquireMatcher oneHostFilter idxAB).hostNames = th ++ ti ∧
      th.Sublist oneHostFilter.hostHints ∧ ti.Sublist (idxAB.map Prod.fst)) :=
  ⟨by decide, acquireLeases_hint_then_index_order oneHostFilter idxAB (by decide)⟩

/-! ### Claim C5: filter-counts completeness -/

theorem sumCounts_bumpCount (fc : List (FilterResult × Nat)) (r : FilterResult) :
    sumCounts (bumpCount fc r) = sumCounts fc + 1 := by
  induction fc with
  | nil => simp [bumpCount, sumCounts]
  | cons p t ih =>
    obtain ⟨r2, n⟩ := p
    by_cases h : r2 = r
    · simp [bumpCount, h, sumCounts]
      omega
    · simp only [bumpCount, if_neg h, sumCounts, List.map_cons, List.sum_cons] at ih ⊢
      omega

theorem tryMatch_of_reached {m : Matcher} {f : HostFilter} (hn : String)
    (hs : HostSummary) (h : m.hostLimitReached f = true) :
    m.tryMatch f hn hs = m := by
  unfold Matcher.tryMatch
  rw [if_pos h]

theorem tryMatch_of_tried {m : Matcher} {f : HostFilter} {hn : String}
    (hs : HostSummary) (h : ¬ m.hostLimitReached f = true)
    (ht : m.tried.contains hn = true) : m.tryMatch f hn hs = m := by
  unfold Matcher.tryMatch
  rw [if_neg h, if_pos ht]

theorem tryMatch_of_new {m : Matcher} {f : HostFilter} {hn : String}
    (hs : HostSummary) (h : ¬ m.hostLimitReached f = true)
    (ht : ¬ m.tried.contains hn = true) :
    m.tryMatch f hn hs =
      { hostNames := if hs.TryMatch f = FilterResult.MATCH then
          m.hostNames ++ [hn] else m.hostNames
        filterCounts := bumpCount m.filterCounts (hs.TryMatch f)
        tried := hn :: m.tried } := by
  unfold Matcher.tryMatch
  rw [if_neg h, if_neg ht]

/-- The bookkeeping invariant relating the matcher's tallies, its tried set
and its matched hosts. -/
def MatcherInv (m : Matcher) : Prop :=
  sumCounts m.filterCounts = m.tried.length ∧ m.tried.Nodup ∧
    m.hostNames.length ≤ sumCounts m.filterCounts

theorem tryMatch_inv (m : Matcher) (f : HostFilter) (hn : String)
    (hs : HostSummary) (h : MatcherInv m) : MatcherInv (m.tryMatch f hn hs) := by
  by_cases h1 : m.hostLimitReached f
  · rw [tryMatch_of_reached hn hs h1]
    exact h
  · by_cases h2 : m.tried.contains hn
    · rw [tryMatch_of_tried hs h1 h2]
      exact h
    · rw [tryMatch_of_new hs h1 h2]
      obtain ⟨hsum, hnodup, hlen⟩ := h
      have hmem : hn ∉ m.tried := fun hm => h2 ((contains_iff_mem _ _).mpr hm)
      refine ⟨?_, ?_, ?_⟩
      · simp [sumCounts_bumpCount, hsum]
      · exact List.Nodup.cons hmem hnodup
      · by_cases h3 : hs.TryMatch f = FilterResult.MATCH
        · simp only [h3, if_pos, List.length_append, List.length_singleton,
            sumCounts_bumpCount]
          omega
        · simp only [if_neg h3, sumCounts_bumpCount]
          omega

theorem tryMatch_tried_subset (m : Matcher) (f : HostFilter) (hn : String)
    (hs : HostSummary) :
    (m.tryMatch f hn hs).tried.toFinset ⊆ insert hn m.tried.toFinset := by
  by_cases h1 : m.hostLimitReached f
  · rw [tryMatch_of_reached hn hs h1]
    exact Finset.subset_insert _ _
  · by_cases h2 : m.tried.contains hn
    · rw [tryMatch_of_tried hs h1 h2]
      exact Finset.subset_insert _ _
    · rw [tryMatch_of_new hs h1 h2]
      simp

theorem runIndex_of_reached {f : HostFilter} (l : List (String × HostSummary))
    {m : Matcher} (h : m.hostLimitReached f = true) : runIndex f l m = m := by
  cases l with
  | nil => rfl
  | cons p rest =>
    obtain ⟨hn, hs⟩ := p
    simp only [runIndex, tryMatch_of_reached hn hs h, if_pos h]

theorem runIndex_inv (f : HostFilter) (l : List (String × HostSummary))
    (m : Matcher) (h : MatcherInv m) : MatcherInv (runIndex f l m) := by
  induction l generalizing m with
  | nil => exact h
  | cons p rest ih =>
    obtain ⟨hn, hs⟩ := p
    simp only [runIndex]
    by_cases hl : (m.tryMatch f hn hs).hostLimitReached f
    · rw [if_pos hl]
      exact tryMatch_inv m f hn hs h
    · rw [if_neg hl]
      exact ih _ (tryMatch_inv m f hn hs h)

theorem runHints_inv (f : HostFilter) (idx : List (String × HostSummary))
    (hints : List String) (m : Matcher) (h : MatcherInv m) :
    MatcherInv (runHints f idx hints m) := by
  induction hints generalizing m with
  | nil => exact h
  | cons hint rest ih =>
    cases hlk : lookupL hint idx with
    | none =>
      rw [runHints_cons_none f idx hint rest m hlk]
      exact ih m h
    | some hs =>
      rw [runHints_cons_some f idx hint rest m hs hlk]
      by_cases hl : (m.tryMatch f hs.hostname hs).hostLimitReached f
      · rw [if_pos hl]
        exact tryMatch_inv m f _ hs h
      · rw [if_neg hl]
        exact ih _ (tryMatch_inv m f _ hs h)

theorem runIndex_tried (f : HostFilter) (l : List (String × HostSummary))
    (m : Matcher) (h : ¬ (runIndex f l m).hostLimitReached f = true) :
    (runIndex f l m).tried.toFinset =
      m.tried.toFinset ∪ (l.map Prod.fst).toFinset := by
  induction l generalizing m with
  | nil => simp [runIndex]
  | cons p rest ih =>
    obtain ⟨hn, hs⟩ := p
    simp only [runIndex] at h ⊢
    by_cases hl : (m.tryMatch f hn hs).hostLimitReached f
    · rw [if_pos hl] at h
      exact absurd hl h
    · rw [if_neg hl] at h ⊢
      have hmr : ¬ m.hostLimitReached f = true := by
        intro hr
        rw [tryMatch_of_reached hn hs hr] at hl
        exact hl hr
      rw [ih _ h]
      by_cases h2 : m.tried.contains hn
      · rw [tryMatch_of_tried hs hmr h2]
        have hmem : hn ∈ m.tried.toFinset :=
          List.mem_toFinset.mpr ((contains_iff_mem _ _).mp h2)
        rw [List.map_cons, List.toFinset_cons, Finset.union_insert,
          Finset.insert_eq_self.mpr]
        exact Finset.mem_union_left _ hmem
      · rw [tryMatch_of_new hs hmr h2]
        simp only [List.toFinset_cons, List.map_cons]
        rw [Finset.insert_union, Finset.union_insert]

theorem runHints_tried_subset (f : HostFilter) (idx : List (String × HostSummary))
    (hcons : ∀ p ∈ idx, p.2.hostname = p.1) (hints : List String) (m : Matcher) :
    (runHints f idx hints m).tried.toFinset ⊆
      m.tried.toFinset ∪ (idx.map Prod.fst).toFinset := by
  induction hints generalizing m with
  | nil =>
    simp only [runHints]
    exact Finset.subset_union_left
  | cons hint rest ih =>
    cases hlk : lookupL hint idx with
    | none =>
      rw [runHints_cons_none f idx hint rest m hlk]
      exact ih m
    | some hs =>
      have hname : hs.hostname = hint := hcons (hint, hs) (lookupL_mem hlk)
      have hkey : hs.hostname ∈ (idx.map Prod.fst).toFinset := by
        rw [hname]
        exact List.mem_toFinset.mpr (mem_keys_of_lookupL hlk)
      have hstep : (m.tryMatch f hs.hostname hs).tried.toFinset ⊆
          m.tried.toFinset ∪ (idx.map Prod.fst).toFinset := by
        intro x hx
        rcases Finset.mem_insert.mp (tryMatch_tried_subset m f hs.hostname hs hx)
          with hx2 | hx2
        · exact Finset.mem_union_right _ (hx2 ▸ hkey)
        · exact Finset.mem_union_left _ hx2
      rw [runHints_cons_some f idx hint rest m hs hlk]
      by_cases hl : (m.tryMatch f hs.hostname hs).hostLimitReached f
      · rw [if_pos hl]
        exact hstep
      · rw [if_neg hl]
        intro x hx
        rcases Finset.mem_union.mp (ih (m.tryMatch f hs.hostname hs) hx)
          with hx2 | hx2
        · exact hstep hx2
        · exact Finset.mem_union_right _ hx2

/-- C5: the values of the returned filter-counts map sum either to the number
of hosts in the index (every host tallied exactly once) or, when the host cap
stopped iteration early, to at least max_hosts. -/
theorem acquireLeases_filter_counts_complete (f : HostFilter)
    (idx : List (String × HostSummary))
    (hnd : keysNodup idx) (hcons : ∀ p ∈ idx, p.2.hostname = p.1) :
    sumCounts (AcquireLeases f idx).2 = idx.length ∨
      ((acquireMatcher f idx).hostLimitReached f = true ∧
        f.maxHosts ≤ sumCounts (AcquireLeases f idx).2) := by
  have hcounts : (AcquireLeases f idx).2 = (acquireMatcher f idx).filterCounts := rfl
  have hinv0 : MatcherInv (NewMatcher f) := by
    refine ⟨rfl, List.nodup_nil, ?_⟩
    simp [NewMatcher, sumCounts]
  have hinv1 := runHints_inv f idx f.hostHints (NewMatcher f) hinv0
  have hinvM : MatcherInv (acquireMatcher f idx) := by
    unfold acquireMatcher
    exact runIndex_inv f idx _ hinv1
  by_cases hlr : (acquireMatcher f idx).hostLimitReached f
  · right
    refine ⟨hlr, ?_⟩
    unfold Matcher.hostLimitReached at hlr
    rw [Bool.and_eq_true] at hlr
    have hle : f.maxHosts ≤ (acquireMatcher f idx).hostNames.length :=
      of_decide_eq_true hlr.2
    rw [hcounts]
    exact le_trans hle hinvM.2.2
  · left
    rw [hcounts, hinvM.1]
    have htr : (acquireMatcher f idx).tried.toFinset =
        (runHints f idx f.hostHints (NewMatcher f)).tried.toFinset ∪
          (idx.map Prod.fst).toFinset := by
      unfold acquireMatcher at hlr ⊢
      exact runIndex_tried f idx _ hlr
    have hsub : (runHints f idx f.hostHints (NewMatcher f)).tried.toFinset ⊆
        (idx.map Prod.fst).toFinset := by
      have := runHints_tried_subset f idx hcons f.hostHints (NewMatcher f)
      simpa [NewMatcher] using this
    have htr2 : (acquireMatcher f idx).tried.toFinset =
        (idx.map Prod.fst).toFinset := by
      rw [htr]
      exact Finset.union_eq_right.mpr hsub
    have hcard : (acquireMatcher f idx).tried.length = idx.length := by
      rw [← List.toFinset_card_of_nodup hinvM.2.1, htr2,
        List.toFinset_card_of_nodup hnd, List.length_map]
    rw [hcard]

/-- Witness for C5 on the concrete two-host index with no host cap. -/
theorem acquireLeases_filter_counts_complete_witness :
    keysNodup idxAB ∧ (∀ p ∈ idxAB, p.2.hostname = p.1) ∧
    (sumCounts (AcquireLeases (HostFilter.mk Resources.zero [] 0) idxAB).2 =
        idxAB.length ∨
      ((acquireMatcher (HostFilter.mk Resources.zero [] 0) idxAB).hostLimitReached
          (HostFilter.mk Resources.zero [] 0) = true ∧
        (HostFilter.mk Resources.zero [] 0).maxHosts ≤
          sumCounts (AcquireLeases (HostFilter.mk Resources.zero [] 0) idxAB).2)) :=
  ⟨by decide, by decide,
    acquireLeases_filter_counts_complete (HostFilter.mk Resources.zero [] 0) idxAB
      (by decide) (by decide)⟩

/-! ### Claim C1: agreement of podHeldIndex with per-host holds -/

/-- Host `h` is present in the index and its holds mapping contains pod
`p`. -/
def heldOnHost (c : CacheState) (p h : String) : Bool :=
  match lookupL h c.hostIndex with
  | some hs => hs.holds.contains p
  | none => false

/-- The bidirectional agreement of spec §3 invariant 6 / §8 invariant 4:
every podHeldIndex entry points at an indexed host holding that pod, and
every held pod of an indexed host is mapped back to that host. -/
def holdIndexAgrees (c : CacheState) : Prop :=
  (∀ ph ∈ c.podHeldIndex, heldOnHost c ph.1 ph.2 = true) ∧
  (∀ hp ∈ c.hostIndex, ∀ p ∈ hp.2.holds, lookupL p c.podHeldIndex = some hp.1)

instance (c : CacheState) : Decidable (holdIndexAgrees c) := by
  unfold holdIndexAgrees
  infer_instance

theorem heldOnHost_iff (c : CacheState) (p h : String) :
    heldOnHost c p h = true ↔
      ∃ hs, lookupL h c.hostIndex = some hs ∧ p ∈ hs.holds := by
  unfold heldOnHost
  cases hl : lookupL h c.hostIndex with
  | none => simp
  | some hs => simp [contains_iff_mem]

/-- An h1 summary holding pod p1. -/
def heldSummaryH1 : HostSummary :=
  { h1SummaryV5 with status := HostStatus.Held, holds := ["p1"] }

/-- A DeleteHost event for h1 at the newer version "6". -/
def deleteH1V6 : HostEvent :=
  ⟨⟨"h1", ⟨0, 0, 0, 0⟩, "6", ⟨0, 0, 0, 0⟩⟩, HostEventType.DeleteHost⟩

/-- C1 counterexample: a cache where h1 holds p1 and podHeldIndex maps p1 to
h1 satisfies the agreement, but ingesting DeleteHost(h1) removes the summary
without cleaning podHeldIndex, leaving a dangling entry: the invariant fails
after a completed ingested event. -/
theorem deleteHost_breaks_hold_agreement :
    holdIndexAgrees (CacheState.mk [("h1", heldSummaryH1)] [("p1", "h1")]) ∧
    ¬ holdIndexAgrees
        ((CacheState.mk [("h1", heldSummaryH1)] [("p1", "h1")]).applyHostEvent
          deleteH1V6) := by
  constructor
  · decide
  · decide

theorem releaseLoop_char (podIDs : List String) (hs : HostSummary)
    (phi : List (String × String)) (hphi : keysNodup phi) (hnd : hs.holds.Nodup) :
    (∀ p, lookupL p (podIDs.foldl
        (fun (acc : HostSummary × List (String × String)) id =>
          (acc.1.ReleaseHoldForPod id, removePodHold acc.2 id)) (hs, phi)).2 =
      if p ∈ podIDs then none else lookupL p phi) ∧
    (∀ p, p ∈ (podIDs.foldl
        (fun (acc : HostSummary × List (String × String)) id =>
          (acc.1.ReleaseHoldForPod id, removePodHold acc.2 id)) (hs, phi)).1.holds ↔
      (p ∈ hs.holds ∧ p ∉ podIDs)) ∧
    (podIDs.foldl
        (fun (acc : HostSummary × List (String × String)) id =>
          (acc.1.ReleaseHoldForPod id, removePodHold acc.2 id)) (hs, phi)).1.hostname
      = hs.hostname ∧
    keysNodup (podIDs.foldl
        (fun (acc : HostSummary × List (String × String)) id =>
          (acc.1.ReleaseHoldForPod id, removePodHold acc.2 id)) (hs, phi)).2 := by
  induction podIDs generalizing hs phi with
  | nil =>
    exact ⟨fun p => by simp, fun p => by simp, rfl, hphi⟩
  | cons q t ih =>
    simp only [List.foldl_cons]
    have hphi2 : keysNodup (removePodHold phi q) := keysNodup_eraseL q phi hphi
    have hnd2 : (hs.ReleaseHoldForPod q).holds.Nodup := hnd.erase q
    obtain ⟨ih1, ih2, ih3, ih4⟩ := ih (hs.ReleaseHoldForPod q) (removePodHold phi q)
      hphi2 hnd2
    have hrh : (hs.ReleaseHoldForPod q).holds = hs.holds.erase q := rfl
    have hrn : (hs.ReleaseHoldForPod q).hostname = hs.hostname := rfl
    refine ⟨?_, ?_, by rw [ih3, hrn], ih4⟩
    · intro p
      rw [ih1 p]
      by_cases hpt : p ∈ t
      · simp [hpt]
      · by_cases hpq : p = q
        · subst hpq
          have he : lookupL p (removePodHold phi p) = none :=
            lookupL_eraseL_self p phi hphi
          simp [hpt, he]
        · have he : lookupL p (removePodHold phi q) = lookupL p phi :=
            lookupL_eraseL_ne phi hpq
          simp [hpt, hpq, he]
    · intro p
      rw [ih2 p, hrh, hnd.mem_erase_iff]
      simp only [List.mem_cons]
      constructor
      · rintro ⟨⟨hne, hm⟩, hnt⟩
        refine ⟨hm, ?_⟩
        rintro (h | h)
        · exact hne h
        · exact hnt h
      · rintro ⟨hm, hn⟩
        push_neg at hn
        exact ⟨⟨hn.1, hm⟩, hn.2⟩

theorem holdForPods_preserves_agreement (c : CacheState) (hostname : String)
    (podIDs : List String)
    (hidx : keysNodup c.hostIndex) (hphi : keysNodup c.podHeldIndex)
    (hagree : holdIndexAgrees c)
    (hsame : ∀ p ∈ podIDs, lookupL p c.podHeldIndex = none ∨
      lookupL p c.podHeldIndex = some hostname) :
    holdIndexAgrees (c.HoldForPods hostname podIDs).1 := by
  cases hfound : lookupL hostname c.hostIndex with
  | none =>
    have hstate : (c.HoldForPods hostname podIDs).1 = c := by
      simp [CacheState.HoldForPods, hfound]
    rw [hstate]
    exact hagree
  | some hs =>
    by_cases hplacing : hs.status = HostStatus.Placing
    · have hr := holdLoop_placing hostname podIDs hs c.podHeldIndex [] hplacing
      have hstate : (c.HoldForPods hostname podIDs).1 =
          CacheState.mk (insertL hostname hs c.hostIndex) c.podHeldIndex := by
        simp [CacheState.HoldForPods, hfound, hr]
      rw [hstate, insertL_self hfound]
      exact hagree
    · obtain ⟨h1, h2, h3, h4, h5⟩ :=
        holdLoop_not_placing hostname podIDs hs c.podHeldIndex hplacing
      have hstate : (c.HoldForPods hostname podIDs).1 =
          CacheState.mk
            (insertL hostname
              (podIDs.foldl (holdStep hostname) (hs, c.podHeldIndex, [])).1
              c.hostIndex)
            (podIDs.foldl (holdStep hostname) (hs, c.podHeldIndex, [])).2.1 := by
        simp [CacheState.HoldForPods, hfound]
      rw [hstate]
      have hphi2 : keysNodup
          (podIDs.foldl (holdStep hostname) (hs, c.podHeldIndex, [])).2.1 :=
        h5 hphi
      constructor
      · intro ph hmem
        rw [heldOnHost_iff]
        have hlk := lookupL_of_mem hphi2 hmem
        rw [h2 ph.1] at hlk
        by_cases hpp : ph.1 ∈ podIDs
        · rw [if_pos hpp] at hlk
          have hph2 : hostname = ph.2 := Option.some_inj.mp hlk
          refine ⟨(podIDs.foldl (holdStep hostname) (hs, c.podHeldIndex, [])).1,
            ?_, ?_⟩
          · rw [← hph2]
            exact lookupL_insertL_self _ _ _
          · exact (h3 ph.1).mpr (Or.inr hpp)
        · rw [if_neg hpp] at hlk
          have horig := hagree.1 (ph.1, ph.2) (lookupL_mem hlk)
          rw [heldOnHost_iff] at horig
          obtain ⟨hs0, hlk0, hmem0⟩ := horig
          by_cases hh : ph.2 = hostname
          · have hs0eq : hs0 = hs := by
              rw [hh, hfound] at hlk0
              exact (Option.some_inj.mp hlk0).symm
            refine ⟨(podIDs.foldl (holdStep hostname) (hs, c.podHeldIndex, [])).1,
              ?_, ?_⟩
            · rw [hh]
              exact lookupL_insertL_self _ _ _
            · refine (h3 ph.1).mpr (Or.inl ?_)
              rw [← hs0eq]
              exact hmem0
          · refine ⟨hs0, ?_, hmem0⟩
            rw [lookupL_insertL_ne _ _ hh]
            exact hlk0
      · intro hp hmem p hp2
        rcases (mem_insertL hidx hp).mp hmem with heq | ⟨hmemidx, hne⟩
        · subst heq
          rw [h2 p]
          rcases (h3 p).mp hp2 with hold2 | hpp
          · by_cases hpp : p ∈ podIDs
            · rw [if_pos hpp]
            · rw [if_neg hpp]
              exact hagree.2 (hostname, hs) (lookupL_mem hfound) p hold2
          · rw [if_pos hpp]
        · have horig := hagree.2 hp hmemidx p hp2
          rw [h2 p]
          by_cases hpp : p ∈ podIDs
          · rcases hsame p hpp with hnone | hsm
            · rw [horig] at hnone
              exact absurd hnone (by simp)
            · rw [horig] at hsm
              exact absurd (Option.some_inj.mp hsm) hne
          · rw [if_neg hpp]
            exact horig

theorem releaseHoldForPods_preserves_agreement (c : CacheState) (hostname : String)
    (podIDs : List String)
    (hidx : keysNodup c.hostIndex) (hphi : keysNodup c.podHeldIndex)
    (hholds : ∀ hp ∈ c.hostIndex, hp.2.holds.Nodup)
    (hagree : holdIndexAgrees c)
    (hsame : ∀ p ∈ podIDs, lookupL p c.podHeldIndex = none ∨
      lookupL p c.podHeldIndex = some hostname) :
    holdIndexAgrees (c.ReleaseHoldForPods hostname podIDs).1 := by
  cases hfound : lookupL hostname c.hostIndex with
  | none =>
    have hstate : (c.ReleaseHoldForPods hostname podIDs).1 = c := by
      simp [CacheState.ReleaseHoldForPods, hfound]
    rw [hstate]
    exact hagree
  | some hs =>
    have hnd : hs.holds.Nodup := hholds (hostname, hs) (lookupL_mem hfound)
    obtain ⟨h1, h2, h3, h4⟩ := releaseLoop_char podIDs hs c.podHeldIndex hphi hnd
    have hstate : (c.ReleaseHoldForPods hostname podIDs).1 =
        CacheState.mk
          (insertL hostname
            (podIDs.foldl
              (fun (acc : HostSummary × List (String × String)) id =>
                (acc.1.ReleaseHoldForPod id, removePodHold acc.2 id))
              (hs, c.podHeldIndex)).1
            c.hostIndex)
          (podIDs.foldl
            (fun (acc : HostSummary × List (String × String)) id =>
              (acc.1.ReleaseHoldForPod id, removePodHold acc.2 id))
            (hs, c.podHeldIndex)).2 := by
      simp [CacheState.ReleaseHoldForPods, hfound]
    rw [hstate]
    constructor
    · intro ph hmem
      rw [heldOnHost_iff]
      have hlk := lookupL_of_mem h4 hmem
      rw [h1 ph.1] at hlk
      by_cases hpp : ph.1 ∈ podIDs
      · rw [if_pos hpp] at hlk
        exact absurd hlk (by simp)
      · rw [if_neg hpp] at hlk
        have horig := hagree.1 (ph.1, ph.2) (lookupL_mem hlk)
        rw [heldOnHost_iff] at horig
        obtain ⟨hs0, hlk0, hmem0⟩ := horig
        by_cases hh : ph.2 = hostname
        · have hs0eq : hs0 = hs := by
            rw [hh, hfound] at hlk0
            exact (Option.some_inj.mp hlk0).symm
          refine ⟨(podIDs.foldl
              (fun (acc : HostSummary × List (String × String)) id =>
                (acc.1.ReleaseHoldForPod id, removePodHold acc.2 id))
              (hs, c.podHeldIndex)).1, ?_, ?_⟩
          · rw [hh]
            exact lookupL_insertL_self _ _ _
          · refine (h2 ph.1).mpr ⟨?_, hpp⟩
            rw [← hs0eq]
            exact hmem0
        · refine ⟨hs0, ?_, hmem0⟩
          rw [lookupL_insertL_ne _ _ hh]
          exact hlk0
    · intro hp hmem p hp2
      rcases (mem_insertL hidx hp).mp hmem with heq | ⟨hmemidx, hne⟩
      · subst heq
        rw [h1 p]
        obtain ⟨hold2, hpp⟩ := (h2 p).mp hp2
        rw [if_neg hpp]
        exact hagree.2 (hostname, hs) (lookupL_mem hfound) p hold2
      · have horig := hagree.2 hp hmemidx p hp2
        rw [h1 p]
        by_cases hpp : p ∈ podIDs
        · rcases hsame p hpp with hnone | hsm
          · rw [horig] at hnone
            exact absurd hnone (by simp)
          · rw [horig] at hsm
            exact absurd (Option.some_inj.mp hsm) hne
        · rw [if_neg hpp]
          exact horig

/-- C1 (amended): the operations that write podHeldIndex — HoldForPods and
ReleaseHoldForPods — preserve the bidirectional agreement between
podHeldIndex and the per-host holds mappings, provided none of the involved
pods is currently held on a different host; but the agreement is not an
invariant of every cache operation and ingested event: deleteHost (and the
wholesale addHost replacement, and CompleteLease, whose source carries the
`TODO: remove held hosts.` comment) never clean podHeldIndex, so a DeleteHost
event leaves a dangling entry (see the counterexample). -/
theorem holdForPods_releaseHold_preserve_agreement (c : CacheState)
    (hostname : String) (podIDs : List String)
    (hidx : keysNodup c.hostIndex) (hphi : keysNodup c.podHeldIndex)
    (hholds : ∀ hp ∈ c.hostIndex, hp.2.holds.Nodup)
    (hagree : holdIndexAgrees c)
    (hsame : ∀ p ∈ podIDs, lookupL p c.podHeldIndex = none ∨
      lookupL p c.podHeldIndex = some hostname) :
    holdIndexAgrees (c.HoldForPods hostname podIDs).1 ∧
      holdIndexAgrees (c.ReleaseHoldForPods hostname podIDs).1 :=
  ⟨holdForPods_preserves_agreement c hostname podIDs hidx hphi hagree hsame,
    releaseHoldForPods_preserves_agreement c hostname podIDs hidx hphi hholds
      hagree hsame⟩

/-- Witness for C1's amended theorem: holding and releasing a fresh pod p2 on
the held host h1 keeps the agreement. -/
theorem holdForPods_releaseHold_preserve_agreement_witness :
    keysNodup (CacheState.mk [("h1", heldSummaryH1)] [("p1", "h1")]).hostIndex ∧
    keysNodup (CacheState.mk [("h1", heldSummaryH1)] [("p1", "h1")]).podHeldIndex ∧
    (∀ hp ∈ (CacheState.mk [("h1", heldSummaryH1)] [("p1", "h1")]).hostIndex,
      hp.2.holds.Nodup) ∧
    holdIndexAgrees (CacheState.mk [("h1", heldSummaryH1)] [("p1", "h1")]) ∧
    (∀ p ∈ ["p2"],
      lookupL p (CacheState.mk [("h1", heldSummaryH1)]
          [("p1", "h1")]).podHeldIndex = none ∨
      lookupL p (CacheState.mk [("h1", heldSummaryH1)]
          [("p1", "h1")]).podHeldIndex = some "h1") ∧
    (holdIndexAgrees ((CacheState.mk [("h1", heldSummaryH1)]
        [("p1", "h1")]).HoldForPods "h1" ["p2"]).1 ∧
      holdIndexAgrees ((CacheState.mk [("h1", heldSummaryH1)]
        [("p1", "h1")]).ReleaseHoldForPods "h1" ["p2"]).1) :=
  ⟨by decide, by decide, by decide, by decide, by decide,
    holdForPods_releaseHold_preserve_agreement
      (CacheState.mk [("h1", heldSummaryH1)] [("p1", "h1")]) "h1" ["p2"]
      (by decide) (by decide) (by decide) (by decide) (by decide)⟩
